import Mathlib

/-!
Verification of the CMA-ES core (`src/evosax/strategies/cma_es.py`)

Shallow embedding of the CMA-ES strategy module.  Machine floats are
modelled by `ℝ`; the external eigendecomposition routine
`jnp.linalg.eigh` is an explicit function parameter `eigh` (the module
calls into the JAX library for it, so it is a black box from the point
of view of this repository); the Python `None`-or-array cache fields
`B`, `D` are `Option`s; Python `print` calls are modelled by returning
the list of printed lines next to the result, and a Python runtime
error (such as the `NameError` raised when an unbound name is
evaluated) is modelled with `Except`.
-/

open Classical Matrix


/-- A Python runtime error. `nameError s` models `NameError: name s is not defined`. -/
inductive PyErr where
  | nameError : String → PyErr
deriving DecidableEq

/-- The immutable hyperparameter record built by `init_strategy`
(the Python `params` dict, lines 44–55).  `lam` is the population size
as a type index so that `weights` has a definite length. -/
structure Params (lam : ℕ) where
  pop_size : ℕ
  mu : ℕ
  mu_eff : ℝ
  c_1 : ℝ
  c_mu : ℝ
  c_m : ℝ
  c_sigma : ℝ
  d_sigma : ℝ
  c_c : ℝ
  chi_n : ℝ
  weights : Fin lam → ℝ
  tol_x : ℝ
  tol_x_up : ℝ
  tol_fun : ℝ
  tol_condition_C : ℝ
  min_generations : ℕ

/-- The mutable strategy state (the Python `memory` dict, lines 56–58).
`B`/`D` are the lazily recomputed eigendecomposition cache: `none`
models Python `None`. -/
structure Memory (n : ℕ) where
  p_sigma : Fin n → ℝ
  p_c : Fin n → ℝ
  sigma : ℝ
  mean : Fin n → ℝ
  C : Matrix (Fin n) (Fin n) ℝ
  D : Option (Fin n → ℝ)
  B : Option (Matrix (Fin n) (Fin n) ℝ)
  generation : ℕ

/-- Source `eigen_decomposition(C, B, D)` (lines 74–82).  `eigh` is the
external `jnp.linalg.eigh`, returning the eigenvalue vector and the
matrix whose columns are the eigenvectors.  On a cache hit (`B` and
`D` both present) the arguments are returned unchanged; otherwise `C`
is symmetrized, decomposed, eigenvalues below `0` are clamped to
`1e-20` before the square root forms `D`, and `C` is reconstructed
from the clamped factorization. -/
noncomputable def eigen_decomposition {n : ℕ}
    (eigh : Matrix (Fin n) (Fin n) ℝ → (Fin n → ℝ) × Matrix (Fin n) (Fin n) ℝ)
    (C : Matrix (Fin n) (Fin n) ℝ)
    (B : Option (Matrix (Fin n) (Fin n) ℝ)) (D : Option (Fin n → ℝ)) :
    Matrix (Fin n) (Fin n) ℝ × Matrix (Fin n) (Fin n) ℝ × (Fin n → ℝ) :=
  match B, D with
  | some B, some D => (C, B, D)
  | _, _ =>
    let Cs := ((1 : ℝ) / 2) • (C + Cᵀ)
    let ed := eigh Cs
    let Dv : Fin n → ℝ := fun i => Real.sqrt (if ed.1 i < 0 then 1e-20 else ed.1 i)
    (ed.2 * Matrix.diagonal (fun i => Dv i ^ 2) * ed.2ᵀ, ed.2, Dv)

/-- Source `jnp.max` over a nonempty vector. -/
noncomputable def fmax {n : ℕ} (v : Fin (n + 1) → ℝ) : ℝ :=
  Finset.univ.sup' Finset.univ_nonempty v

/-- Source `jnp.min` over a nonempty vector. -/
noncomputable def fmin {n : ℕ} (v : Fin (n + 1) → ℝ) : ℝ :=
  Finset.univ.inf' Finset.univ_nonempty v

/-- First stopping test (lines 182–183): recent objective values made
no progress after enough generations. -/
def termCond1 {k lam n : ℕ} (values : Fin (k + 1) → ℝ) (p : Params lam)
    (m : Memory n) : Prop :=
  p.min_generations < m.generation ∧ fmax values - fmin values < p.tol_fun

/-- The first conjunct of the second stopping test (line 189):
`jnp.all(memory["sigma"] * dC < params["tol_x"])`, where
`dC = jnp.diag(memory["C"])`.  Note the source compares `sigma * dC`
— the diagonal of the covariance itself, not its square root. -/
def termCond2a {lam n : ℕ} (p : Params lam) (m : Memory n) : Prop :=
  ∀ i, m.sigma * m.C i i < p.tol_x

/-- Third stopping test (line 195): the step size exploded. -/
def termCond3 {lam n : ℕ} (p : Params lam) (m : Memory (n + 1))
    (D : Fin (n + 1) → ℝ) : Prop :=
  p.tol_x_up < m.sigma * fmax D

/-- Fourth stopping test (line 201): `jnp.any(mean == mean + 0.2 * sigma * sqrt(dC))`. -/
def termCond4 {lam n : ℕ} (p : Params lam) (m : Memory n) : Prop :=
  ∃ i, m.mean i = m.mean i + 0.2 * m.sigma * Real.sqrt (m.C i i)

/-- Fifth stopping test (lines 207–208):
`jnp.all(mean == mean + 0.1 * sigma * D[0] * B[:, 0])`. -/
def termCond5 {lam n : ℕ} (p : Params lam) (m : Memory (n + 1))
    (B : Matrix (Fin (n + 1)) (Fin (n + 1)) ℝ) (D : Fin (n + 1) → ℝ) : Prop :=
  ∀ i, m.mean i = m.mean i + 0.1 * m.sigma * D 0 * B i 0

/-- Sixth stopping test (lines 213–214): condition number of `C` exploded. -/
def termCond6 {lam n : ℕ} (p : Params lam) (D : Fin (n + 1) → ℝ) : Prop :=
  p.tol_condition_C < fmax D / fmin D

/-- Source `check_termination(values, params, memory)` (lines 176–217).
Returns the list of printed lines together with the boolean result;
`Except.error` models an uncaught Python exception.  The second test
(line 189) short-circuits: when its first conjunct
(`jnp.all(sigma * dC < tol_x)`) is false the test simply fails, but
when it is true Python evaluates `np.all(...)` and raises
`NameError` because the alias `np` is never imported in this module. -/
noncomputable def check_termination {k lam n : ℕ}
    (eigh : Matrix (Fin (n + 1)) (Fin (n + 1)) ℝ →
      (Fin (n + 1) → ℝ) × Matrix (Fin (n + 1)) (Fin (n + 1)) ℝ)
    (values : Fin (k + 1) → ℝ) (p : Params lam) (m : Memory (n + 1)) :
    Except PyErr (List String × Bool) :=
  let r := eigen_decomposition eigh m.C m.B m.D
  if termCond1 values p m then
    .ok (["TERMINATE ----> Convergence/No progress in objective"], true)
  else if termCond2a p m then
    .error (PyErr.nameError "np")
  else if termCond3 p m r.2.2 then
    .ok (["TERMINATE ----> Stepsize sigma exploded"], true)
  else if termCond4 p m then
    .ok (["TERMINATE ----> No effect when adding std to mean"], true)
  else if termCond5 p m r.2.1 r.2.2 then
    .ok (["TERMINATE ----> No effect when adding std to mean"], true)
  else if termCond6 p r.2.2 then
    .ok (["TERMINATE ----> C condition number exploded"], true)
  else .ok ([], false)

/-- Source `weights_prime` (lines 9–11): `log((population_size + 1) / 2) - log(i + 1)`. -/
noncomputable def weights_prime (lam : ℕ) : Fin lam → ℝ :=
  fun i => Real.log (((lam : ℝ) + 1) / 2) - Real.log ((i : ℝ) + 1)

/-- Source `mu_eff` (lines 12–13): squared sum over the first `mu` preliminary
weights divided by the sum of their squares. -/
noncomputable def muEff (lam mu : ℕ) : ℝ :=
  (∑ i ∈ Finset.univ.filter (fun i : Fin lam => (i : ℕ) < mu), weights_prime lam i) ^ 2 /
    ∑ i ∈ Finset.univ.filter (fun i : Fin lam => (i : ℕ) < mu), weights_prime lam i ^ 2

/-- Source `mu_eff_minus` (lines 14–15): the same statistic over the tail `[mu:]`. -/
noncomputable def muEffMinus (lam mu : ℕ) : ℝ :=
  (∑ i ∈ Finset.univ.filter (fun i : Fin lam => mu ≤ (i : ℕ)), weights_prime lam i) ^ 2 /
    ∑ i ∈ Finset.univ.filter (fun i : Fin lam => mu ≤ (i : ℕ)), weights_prime lam i ^ 2

/-- Source `c_1` (line 19), with `alpha_cov = 2`. -/
noncomputable def c1Of (n lam mu : ℕ) : ℝ :=
  2 / (((n : ℝ) + 1.3) ^ 2 + muEff lam mu)

/-- Source `c_mu` (lines 20–21), with `alpha_cov = 2`. -/
noncomputable def cMuOf (n lam mu : ℕ) : ℝ :=
  min (1 - c1Of n lam mu - 1e-8)
    (2 * (muEff lam mu - 2 + 1 / muEff lam mu) /
      (((n : ℝ) + 2) ^ 2 + 2 * muEff lam mu / 2))

/-- Source `min_alpha` (lines 22–24), the Python three-argument `min`. -/
noncomputable def minAlphaOf (n lam mu : ℕ) : ℝ :=
  min (1 + c1Of n lam mu / cMuOf n lam mu)
    (min (1 + (2 * muEffMinus lam mu) / (muEff lam mu + 2))
      ((1 - c1Of n lam mu - cMuOf n lam mu) / ((n : ℝ) * cMuOf n lam mu)))

/-- Source `positive_sum` (line 25): sum of the strictly positive preliminary weights. -/
noncomputable def positiveSum (lam : ℕ) : ℝ :=
  ∑ i ∈ Finset.univ.filter (fun i : Fin lam => 0 < weights_prime lam i),
    weights_prime lam i

/-- Source `negative_sum` (line 26): sum of absolute values of the strictly
negative preliminary weights. -/
noncomputable def negativeSum (lam : ℕ) : ℝ :=
  ∑ i ∈ Finset.univ.filter (fun i : Fin lam => weights_prime lam i < 0),
    |weights_prime lam i|

/-- Source `weights` (lines 27–29): `jnp.where(weights_prime >= 0,
1/positive_sum * weights_prime, min_alpha/negative_sum * weights_prime)`. -/
noncomputable def weightsOf (n lam mu : ℕ) : Fin lam → ℝ :=
  fun i =>
    if 0 ≤ weights_prime lam i then 1 / positiveSum lam * weights_prime lam i
    else minAlphaOf n lam mu / negativeSum lam * weights_prime lam i

/-- Source `init_strategy(mean_init, sigma, population_size, mu)` (lines 6–59).
`n_dim` is the length of `mean_init`.  The body performs no validation
and has no failure path: it always returns the `(params, memory)` pair. -/
noncomputable def init_strategy {n : ℕ} (mean_init : Fin n → ℝ) (sigma : ℝ)
    (population_size mu : ℕ) : Params population_size × Memory n :=
  let mu_eff := muEff population_size mu
  ({ pop_size := population_size
     mu := mu
     mu_eff := mu_eff
     c_1 := c1Of n population_size mu
     c_mu := cMuOf n population_size mu
     c_m := 1
     c_sigma := (mu_eff + 2) / ((n : ℝ) + mu_eff + 5)
     d_sigma := 1 + 2 * max 0 (Real.sqrt ((mu_eff - 1) / ((n : ℝ) + 1)) - 1) +
       (mu_eff + 2) / ((n : ℝ) + mu_eff + 5)
     c_c := (4 + mu_eff / (n : ℝ)) / ((n : ℝ) + 4 + 2 * mu_eff / (n : ℝ))
     chi_n := Real.sqrt (n : ℝ) *
       (1 - 1 / (4 * (n : ℝ)) + 1 / (21 * ((n : ℝ) ^ 2)))
     weights := weightsOf n population_size mu
     tol_x := 1e-12 * sigma
     tol_x_up := 1e4
     tol_fun := 1e-12
     tol_condition_C := 1e14
     min_generations := 10 },
   { p_sigma := fun _ => 0
     p_c := fun _ => 0
     sigma := sigma
     mean := mean_init
     C := 1
     D := none
     B := none
     generation := 0 })

/-- Source `check_initialization()` (lines 164–173).  The function takes no
arguments and its assertions reference names (`population_size`,
`n_dim`, `sigma`, `c_1`, `c_mu`, `c_sigma`, `c_c`) that are bound
neither locally nor at module level, so any call raises `NameError`
when the very first assert evaluates `population_size`; no assertion
ever actually checks anything. -/
def check_initialization : Except PyErr Unit :=
  Except.error (PyErr.nameError "population_size")

/-- A trivial stand-in for the external `jnp.linalg.eigh` used where the
eigendecomposition cache is present (so `eigh` is never consulted), or
where its result is discarded.  On the zero matrix it is moreover the
genuine eigendecomposition: all eigenvalues `0`, eigenvectors the
identity. -/
noncomputable def trivEigh {n : ℕ} :
    Matrix (Fin n) (Fin n) ℝ → (Fin n → ℝ) × Matrix (Fin n) (Fin n) ℝ :=
  fun _ => (fun _ => 0, 1)

/-- A one-element vector of recent fitness values. -/
def vA : Fin 1 → ℝ := fun _ => 0

/-- A parameter record carrying the tolerance values that
`init_strategy` installs (for `sigma = 1`); the fields irrelevant to
termination are populated with placeholders. -/
noncomputable def pA : Params 1 where
  pop_size := 1
  mu := 1
  mu_eff := 0
  c_1 := 0
  c_mu := 0
  c_m := 1
  c_sigma := 0
  d_sigma := 0
  c_c := 0
  chi_n := 0
  weights := fun _ => 0
  tol_x := 1e-12
  tol_x_up := 1e4
  tol_fun := 1e-12
  tol_condition_C := 1e14
  min_generations := 10

/-- A cache-present state whose covariance diagonal is `(0, 1)`:
coordinate `0` is unmoved by adding `0.2·σ·√C₀₀ = 0`, coordinate `1`
is moved by `0.2`. -/
noncomputable def mA : Memory 2 where
  p_sigma := fun _ => 0
  p_c := fun _ => 0
  sigma := 1
  mean := fun _ => 0
  C := Matrix.diagonal ![0, 1]
  D := some ![1, 1]
  B := some 1
  generation := 0

/-- A cache-present state with identity covariance but a stored `D` of
zeros, so that the fifth test (no effect along the leading principal
axis) fires while the fourth does not. -/
noncomputable def mB : Memory 2 where
  p_sigma := fun _ => 0
  p_c := fun _ => 0
  sigma := 1
  mean := fun _ => 0
  C := 1
  D := some ![0, 0]
  B := some 1
  generation := 0

/-- A fresh-generation state with the zero covariance matrix: every
diagonal entry (and every `p_c` entry) is far below `tol_x`. -/
noncomputable def mC : Memory 2 where
  p_sigma := fun _ => 0
  p_c := fun _ => 0
  sigma := 1
  mean := fun _ => 0
  C := 0
  D := none
  B := none
  generation := 0

/-- Source `ask_cma_strategy(rng, memory, params)` (lines 62–71).  The random
draw `z ~ N(0, I)` of shape `(n_dim, pop_size)` is an explicit input
(the strategy is deterministic given the draw).  The eigendecomposition
result is written back into the state: `C` becomes the (possibly
reconstructed) matrix and `B`, `D` the fresh cache. -/
noncomputable def ask_cma_strategy {n lam : ℕ}
    (eigh : Matrix (Fin n) (Fin n) ℝ → (Fin n → ℝ) × Matrix (Fin n) (Fin n) ℝ)
    (z : Matrix (Fin n) (Fin lam) ℝ) (memory : Memory n) (params : Params lam) :
    Matrix (Fin lam) (Fin n) ℝ × Memory n :=
  let r := eigen_decomposition eigh memory.C memory.B memory.D
  let y := r.2.1 * Matrix.diagonal r.2.2 * z
  let x : Matrix (Fin lam) (Fin n) ℝ :=
    Matrix.of fun k i => memory.mean i + memory.sigma * y i k
  (x, { memory with C := r.1, B := some r.2.1, D := some r.2.2 })

/-- Source `update_mean(sorted_solutions, mu, params, memory)` (lines 110–116).
`sorted_solutions k = (fitness, candidate)` in ascending-fitness
order; the function returns `(y_k, y_w, mean)`. -/
noncomputable def update_mean {n lam : ℕ}
    (sorted_solutions : Fin lam → ℝ × (Fin n → ℝ)) (mu : ℕ)
    (params : Params lam) (memory : Memory n) :
    (Fin lam → Fin n → ℝ) × (Fin n → ℝ) × (Fin n → ℝ) :=
  let x_k : Fin lam → Fin n → ℝ := fun k => (sorted_solutions k).2
  let y_k : Fin lam → Fin n → ℝ := fun k i => (x_k k i - memory.mean i) / memory.sigma
  let y_w : Fin n → ℝ := fun i =>
    ∑ k ∈ Finset.univ.filter (fun k : Fin lam => (k : ℕ) < mu),
      y_k k i * params.weights k
  let mean : Fin n → ℝ := fun i => memory.mean i + params.c_m * memory.sigma * y_w i
  (y_k, y_w, mean)

/-- Source `update_p_sigma(y_w, params, memory)` (lines 119–127): computes
`C^(-1/2) = B diag(1/D) Bᵀ`, the new step-size path, and returns the
invalidated cache `_B = _D = None` alongside. -/
noncomputable def update_p_sigma {n lam : ℕ}
    (eigh : Matrix (Fin n) (Fin n) ℝ → (Fin n → ℝ) × Matrix (Fin n) (Fin n) ℝ)
    (y_w : Fin n → ℝ) (params : Params lam) (memory : Memory n) :
    (Fin n → ℝ) × Matrix (Fin n) (Fin n) ℝ × Matrix (Fin n) (Fin n) ℝ ×
      Option (Matrix (Fin n) (Fin n) ℝ) × Option (Fin n → ℝ) :=
  let r := eigen_decomposition eigh memory.C memory.B memory.D
  let C_2 := r.2.1 * Matrix.diagonal (fun i => 1 / r.2.2 i) * r.2.1ᵀ
  let p_sigma_new : Fin n → ℝ := fun i =>
    (1 - params.c_sigma) * memory.p_sigma i +
      Real.sqrt (params.c_sigma * (2 - params.c_sigma) * params.mu_eff) *
        C_2.mulVec y_w i
  (p_sigma_new, C_2, r.1, none, none)

/-- Source `update_p_c(y_w, params, memory)` (lines 130–139): the Heaviside
gate `h_sigma` and the covariance evolution path. -/
noncomputable def update_p_c {n lam : ℕ} (y_w : Fin n → ℝ) (params : Params lam)
    (memory : Memory n) : (Fin n → ℝ) × ℝ × ℝ :=
  let norm_p_sigma := Real.sqrt (∑ i, memory.p_sigma i ^ 2)
  let h_sigma_cond_left := norm_p_sigma /
    Real.sqrt (1 - (1 - params.c_sigma) ^ (2 * (memory.generation + 1)))
  let h_sigma_cond_right := (1.4 + 2 / ((n : ℝ) + 1)) * params.chi_n
  let h_sigma : ℝ := if h_sigma_cond_left < h_sigma_cond_right then 1 else 0
  let p_c : Fin n → ℝ := fun i =>
    (1 - params.c_c) * memory.p_c i +
      h_sigma * Real.sqrt (params.c_c * (2 - params.c_c) * params.mu_eff) * y_w i
  (p_c, norm_p_sigma, h_sigma)

/-- Source `update_covariance(y_k, h_sigma, C_2, params, memory)` (lines
142–154): rank-one plus rank-mu update with actively reweighted
negative weights. -/
noncomputable def update_covariance {n lam : ℕ} (y_k : Fin lam → Fin n → ℝ)
    (h_sigma : ℝ) (C_2 : Matrix (Fin n) (Fin n) ℝ) (params : Params lam)
    (memory : Memory n) : Matrix (Fin n) (Fin n) ℝ :=
  let w_io : Fin lam → ℝ := fun k => params.weights k *
    (if 0 ≤ params.weights k then 1 else
      (n : ℝ) / (Real.sqrt (∑ i, C_2.mulVec (y_k k) i ^ 2) ^ 2 + 1e-20))
  let delta_h_sigma := (1 - h_sigma) * params.c_c * (2 - params.c_c)
  let rank_one : Matrix (Fin n) (Fin n) ℝ :=
    Matrix.of fun i j => memory.p_c i * memory.p_c j
  let rank_mu : Matrix (Fin n) (Fin n) ℝ :=
    Matrix.of fun i j => ∑ k, w_io k * (y_k k i * y_k k j)
  (1 + params.c_1 * delta_h_sigma - params.c_1 -
      params.c_mu * ∑ k, params.weights k) • memory.C +
    params.c_1 • rank_one + params.c_mu • rank_mu

/-- Source `update_sigma(norm_p_sigma, params, memory)` (lines 157–161). -/
noncomputable def update_sigma {n lam : ℕ} (norm_p_sigma : ℝ)
    (params : Params lam) (memory : Memory n) : ℝ :=
  memory.sigma * Real.exp (params.c_sigma / params.d_sigma *
    (norm_p_sigma / params.chi_n - 1))

/-- Source `tell_cma_strategy(x, fitness, mu, params, memory)` (lines 85–102),
line by line: increment the generation, sort the candidates by
ascending fitness (`argsort` of the fitness column), then apply each
update in order, threading the intermediate dictionary writes. -/
noncomputable def tell_cma_strategy {n lam : ℕ}
    (eigh : Matrix (Fin n) (Fin n) ℝ → (Fin n → ℝ) × Matrix (Fin n) (Fin n) ℝ)
    (x : Matrix (Fin lam) (Fin n) ℝ) (fitness : Fin lam → ℝ) (mu : ℕ)
    (params : Params lam) (memory : Memory n) : Memory n :=
  let memory1 := { memory with generation := memory.generation + 1 }
  let perm := Tuple.sort fitness
  let sorted_solutions : Fin lam → ℝ × (Fin n → ℝ) :=
    fun k => (fitness (perm k), fun i => x (perm k) i)
  let um := update_mean sorted_solutions mu params memory1
  let memory2 := { memory1 with mean := um.2.2 }
  let ups := update_p_sigma eigh um.2.1 params memory2
  let memory3 := { memory2 with
    p_sigma := ups.1, C := ups.2.2.1, B := ups.2.2.2.1, D := ups.2.2.2.2 }
  let upc := update_p_c um.2.1 params memory3
  let memory4 := { memory3 with p_c := upc.1 }
  let C := update_covariance um.1 upc.2.2 ups.2.1 params memory4
  let memory5 := { memory4 with C := C }
  let sigma := update_sigma upc.2.1 params memory5
  { memory5 with sigma := sigma }

/-- A non-symmetric covariance matrix whose symmetrization
`(C + Cᵀ)/2 = !![73/25, -36/25; -36/25, 52/25]` has the exact rational
eigendecomposition with eigenvalues `1, 4` and orthonormal
eigenvectors `(3/5, 4/5)` and `(-4/5, 3/5)`. -/
noncomputable def C0 : Matrix (Fin 2) (Fin 2) ℝ :=
  !![73 / 25, 0; -72 / 25, 52 / 25]

/-- The orthonormal eigenvector matrix of the symmetrization of `C0`
(columns are eigenvectors). -/
noncomputable def Bce : Matrix (Fin 2) (Fin 2) ℝ :=
  !![3 / 5, -4 / 5; 4 / 5, 3 / 5]

/-- The eigenvalues of the symmetrization of `C0`. -/
noncomputable def D2ce : Fin 2 → ℝ := ![1, 4]

/-- The external `eigh` evaluated where `ask` needs it: on the
symmetrization of `C0` it returns the genuine eigendecomposition
`(D2ce, Bce)` (validated inside `ask_repopulates_cache_cex`). -/
noncomputable def eighCE :
    Matrix (Fin 2) (Fin 2) ℝ → (Fin 2 → ℝ) × Matrix (Fin 2) (Fin 2) ℝ :=
  fun _ => (D2ce, Bce)

/-- A cache-absent state holding `C0`. -/
noncomputable def m0 : Memory 2 where
  p_sigma := fun _ => 0
  p_c := fun _ => 0
  sigma := 1
  mean := fun _ => 0
  C := C0
  D := none
  B := none
  generation := 0

/-- A zero random draw for a single candidate. -/
noncomputable def z0 : Matrix (Fin 2) (Fin 1) ℝ := 0

lemma mA_not_c1 : ¬ termCond1 vA pA mA := by
  intro h
  exact absurd h.1 (by simp [pA, mA])

lemma mA_not_c2a : ¬ termCond2a pA mA := by
  intro h
  have h1 := h 1
  simp only [mA, pA, Matrix.diagonal_apply_eq, Matrix.cons_val_one,
    Matrix.head_cons] at h1
  norm_num at h1

lemma mA_not_c3 : ¬ termCond3 pA mA ![1, 1] := by
  intro h
  have hle : fmax ![(1 : ℝ), 1] ≤ 1 :=
    Finset.sup'_le _ _ (fun i _ => by fin_cases i <;> simp)
  simp only [termCond3, mA, pA] at h
  rw [one_mul] at h
  norm_num at h
  linarith

lemma mA_c4 : termCond4 pA mA := by
  refine ⟨0, ?_⟩
  simp [mA, Matrix.diagonal_apply_eq]

lemma check_mA :
    check_termination trivEigh vA pA mA =
      .ok (["TERMINATE ----> No effect when adding std to mean"], true) := by
  have hr : eigen_decomposition trivEigh mA.C mA.B mA.D = (mA.C, 1, ![1, 1]) := rfl
  simp only [check_termination, hr]
  rw [if_neg mA_not_c1, if_neg mA_not_c2a, if_neg mA_not_c3, if_pos mA_c4]

lemma mB_not_c1 : ¬ termCond1 vA pA mB := by
  intro h
  exact absurd h.1 (by simp [pA, mB])

lemma mB_not_c2a : ¬ termCond2a pA mB := by
  intro h
  have h1 := h 0
  simp only [mB, pA, Matrix.one_apply_eq] at h1
  norm_num at h1

lemma mB_not_c3 : ¬ termCond3 pA mB ![0, 0] := by
  intro h
  have hle : fmax ![(0 : ℝ), 0] ≤ 0 :=
    Finset.sup'_le _ _ (fun i _ => by fin_cases i <;> simp)
  simp only [termCond3, mB, pA] at h
  rw [one_mul] at h
  norm_num at h
  linarith

lemma mB_not_c4 : ¬ termCond4 pA mB := by
  rintro ⟨i, hi⟩
  simp only [mB, Matrix.one_apply_eq, Real.sqrt_one] at hi
  norm_num at hi

lemma mB_c5 : termCond5 pA mB 1 ![0, 0] := by
  intro i
  simp [mB]

lemma check_mB :
    check_termination trivEigh vA pA mB =
      .ok (["TERMINATE ----> No effect when adding std to mean"], true) := by
  have hr : eigen_decomposition trivEigh mB.C mB.B mB.D = (mB.C, 1, ![0, 0]) := rfl
  simp only [check_termination, hr]
  rw [if_neg mB_not_c1, if_neg mB_not_c2a, if_neg mB_not_c3, if_neg mB_not_c4,
    if_pos mB_c5]

lemma mC_not_c1 : ¬ termCond1 vA pA mC := by
  intro h
  exact absurd h.1 (by simp [pA, mC])

lemma mC_c2a : termCond2a pA mC := by
  intro i
  simp only [mC, pA, Matrix.zero_apply, mul_zero]
  norm_num

/-- C10: whenever the first stopping condition does not fire and
`sigma * C[i][i] < tol_x` holds for every coordinate `i`, the
termination check does not return a result: it raises a `NameError`
for the unbound alias `np` (line 189–190) before any of the remaining
conditions is evaluated. -/
theorem termination_tolx_raises_nameError {k lam n : ℕ}
    (eigh : Matrix (Fin (n + 1)) (Fin (n + 1)) ℝ →
      (Fin (n + 1) → ℝ) × Matrix (Fin (n + 1)) (Fin (n + 1)) ℝ)
    (values : Fin (k + 1) → ℝ) (p : Params lam) (m : Memory (n + 1))
    (h1 : ¬ termCond1 values p m) (h2 : termCond2a p m) :
    check_termination eigh values p m = .error (PyErr.nameError "np") := by
  simp only [check_termination]
  rw [if_neg h1, if_pos h2]

/-- Witness for C10 at the concrete state `mC` (zero covariance,
generation 0): the checker raises `NameError: np`. -/
theorem termination_tolx_raises_nameError_witness :
    check_termination trivEigh vA pA mC = .error (PyErr.nameError "np") :=
  termination_tolx_raises_nameError trivEigh vA pA mC mC_not_c1 mC_c2a

lemma check_mC : check_termination trivEigh vA pA mC = .error (PyErr.nameError "np") := by
  simp only [check_termination]
  rw [if_neg mC_not_c1, if_pos mC_c2a]

/-- C1 (code bug): at the concrete state `mC` the spec's "search
variance too small" condition holds — `sigma * sqrt(C[i][i]) < tol_x`
for every coordinate and `sigma * p_c < tol_x` elementwise — so the
claim says the checker fires and reports convergence.  The code
instead compares `sigma * C[i][i]` without the square root and then
crashes with `NameError` on the unbound alias `np`, so no result (and
no reason) is ever reported. -/
theorem variance_too_small_condition_crashes :
    (∀ i, mC.sigma * Real.sqrt (mC.C i i) < pA.tol_x) ∧
    (∀ i, mC.sigma * mC.p_c i < pA.tol_x) ∧
    check_termination trivEigh vA pA mC = .error (PyErr.nameError "np") := by
  refine ⟨fun i => ?_, fun i => ?_, check_mC⟩
  · simp only [mC, pA, Matrix.zero_apply, Real.sqrt_zero, mul_zero]
    norm_num
  · simp only [mC, pA, mul_zero]
    norm_num

/-- C8 (amended): when the first three stopping tests do not fire (and
the eigendecomposition cache is present), the fourth test fires
exactly when SOME coordinate of `mean + 0.2 * sigma * sqrt(diag(C))`
equals the corresponding coordinate of `mean` (the source uses
`jnp.any`, not a conjunction over all coordinates), and when it fires
the checker returns `true` after printing the no-effect message. -/
theorem no_effect_coordinate_amended {k lam n : ℕ}
    (eigh : Matrix (Fin (n + 1)) (Fin (n + 1)) ℝ →
      (Fin (n + 1) → ℝ) × Matrix (Fin (n + 1)) (Fin (n + 1)) ℝ)
    (values : Fin (k + 1) → ℝ) (p : Params lam) (m : Memory (n + 1))
    (Bm : Matrix (Fin (n + 1)) (Fin (n + 1)) ℝ) (Dv : Fin (n + 1) → ℝ)
    (hB : m.B = some Bm) (hD : m.D = some Dv)
    (h1 : ¬ termCond1 values p m) (h2 : ¬ termCond2a p m)
    (h3 : ¬ termCond3 p m Dv) :
    (termCond4 p m ↔
      ∃ i, m.mean i + 0.2 * m.sigma * Real.sqrt (m.C i i) = m.mean i) ∧
    (termCond4 p m →
      check_termination eigh values p m =
        .ok (["TERMINATE ----> No effect when adding std to mean"], true)) := by
  constructor
  · exact exists_congr (fun i => eq_comm)
  · intro h4
    have hr : eigen_decomposition eigh m.C m.B m.D = (m.C, Bm, Dv) := by
      rw [hB, hD]; rfl
    simp only [check_termination, hr]
    rw [if_neg h1, if_neg h2, if_neg h3, if_pos h4]

/-- Witness for C8 at the concrete state `mA`. -/
theorem no_effect_coordinate_amended_witness :
    (termCond4 pA mA ↔
      ∃ i, mA.mean i + 0.2 * mA.sigma * Real.sqrt (mA.C i i) = mA.mean i) ∧
    (termCond4 pA mA →
      check_termination trivEigh vA pA mA =
        .ok (["TERMINATE ----> No effect when adding std to mean"], true)) :=
  no_effect_coordinate_amended trivEigh vA pA mA 1 ![1, 1] rfl rfl
    mA_not_c1 mA_not_c2a mA_not_c3

/-- C8 counterexample: at the state `mA` the fourth condition fires
(coordinate `0` has zero variance) and the checker reports the
no-effect termination, yet NOT every coordinate of
`mean + 0.2 * sigma * sqrt(diag(C))` equals the corresponding
coordinate of `mean` (coordinate `1` moves by `0.2`): the claim's
"every coordinate" reading is false. -/
theorem no_effect_coordinate_cex :
    termCond4 pA mA ∧
    ¬ (∀ i, mA.mean i + 0.2 * mA.sigma * Real.sqrt (mA.C i i) = mA.mean i) ∧
    check_termination trivEigh vA pA mA =
      .ok (["TERMINATE ----> No effect when adding std to mean"], true) := by
  refine ⟨mA_c4, fun h => ?_, check_mA⟩
  have h1 := h 1
  simp only [mA, Matrix.diagonal_apply_eq, Matrix.cons_val_one,
    Matrix.head_cons, Real.sqrt_one] at h1
  norm_num at h1

/-- C2 (amended): the checker returns only a boolean next to its
printed output, and the fourth and fifth stopping conditions print the
identical message, so a run in which condition 4 fired is
indistinguishable — in return value and printed output alike — from a
run in which condition 5 fired. -/
theorem reasons_4_5_indistinguishable {k lam n k' lam' n' : ℕ}
    (eigh : Matrix (Fin (n + 1)) (Fin (n + 1)) ℝ →
      (Fin (n + 1) → ℝ) × Matrix (Fin (n + 1)) (Fin (n + 1)) ℝ)
    (values : Fin (k + 1) → ℝ) (p : Params lam) (m : Memory (n + 1))
    (Bm : Matrix (Fin (n + 1)) (Fin (n + 1)) ℝ) (Dv : Fin (n + 1) → ℝ)
    (hB : m.B = some Bm) (hD : m.D = some Dv)
    (h1 : ¬ termCond1 values p m) (h2 : ¬ termCond2a p m)
    (h3 : ¬ termCond3 p m Dv) (h4 : termCond4 p m)
    (eigh' : Matrix (Fin (n' + 1)) (Fin (n' + 1)) ℝ →
      (Fin (n' + 1) → ℝ) × Matrix (Fin (n' + 1)) (Fin (n' + 1)) ℝ)
    (values' : Fin (k' + 1) → ℝ) (p' : Params lam') (m' : Memory (n' + 1))
    (Bm' : Matrix (Fin (n' + 1)) (Fin (n' + 1)) ℝ) (Dv' : Fin (n' + 1) → ℝ)
    (hB' : m'.B = some Bm') (hD' : m'.D = some Dv')
    (h1' : ¬ termCond1 values' p' m') (h2' : ¬ termCond2a p' m')
    (h3' : ¬ termCond3 p' m' Dv') (h4' : ¬ termCond4 p' m')
    (h5' : termCond5 p' m' Bm' Dv') :
    check_termination eigh values p m = check_termination eigh' values' p' m' := by
  have hr : eigen_decomposition eigh m.C m.B m.D = (m.C, Bm, Dv) := by
    rw [hB, hD]; rfl
  have hr' : eigen_decomposition eigh' m'.C m'.B m'.D = (m'.C, Bm', Dv') := by
    rw [hB', hD']; rfl
  have e1 : check_termination eigh values p m =
      .ok (["TERMINATE ----> No effect when adding std to mean"], true) := by
    simp only [check_termination, hr]
    rw [if_neg h1, if_neg h2, if_neg h3, if_pos h4]
  have e2 : check_termination eigh' values' p' m' =
      .ok (["TERMINATE ----> No effect when adding std to mean"], true) := by
    simp only [check_termination, hr']
    rw [if_neg h1', if_neg h2', if_neg h3', if_neg h4', if_pos h5']
  rw [e1, e2]

/-- Witness for C2's amended statement at the concrete states `mA`
(condition 4 fires) and `mB` (condition 5 fires). -/
theorem reasons_4_5_indistinguishable_witness :
    check_termination trivEigh vA pA mA = check_termination trivEigh vA pA mB :=
  reasons_4_5_indistinguishable trivEigh vA pA mA 1 ![1, 1] rfl rfl
    mA_not_c1 mA_not_c2a mA_not_c3 mA_c4
    trivEigh vA pA mB 1 ![0, 0] rfl rfl
    mB_not_c1 mB_not_c2a mB_not_c3 mB_not_c4 mB_c5

/-- C2 counterexample: at `mA` the fourth stopping condition fires, at
`mB` the fifth fires, yet the checker's complete observable behaviour
(returned boolean together with everything printed) is identical, so
the six conditions do not yield six mutually distinguishable reasons
and the return value does not carry which condition fired. -/
theorem reasons_not_distinguishable_cex :
    (¬ termCond1 vA pA mA ∧ ¬ termCond2a pA mA ∧ ¬ termCond3 pA mA ![1, 1] ∧
      termCond4 pA mA) ∧
    (¬ termCond1 vA pA mB ∧ ¬ termCond2a pA mB ∧ ¬ termCond3 pA mB ![0, 0] ∧
      ¬ termCond4 pA mB ∧ termCond5 pA mB 1 ![0, 0]) ∧
    check_termination trivEigh vA pA mA = check_termination trivEigh vA pA mB := by
  refine ⟨⟨mA_not_c1, mA_not_c2a, mA_not_c3, mA_c4⟩,
    ⟨mB_not_c1, mB_not_c2a, mB_not_c3, mB_not_c4, mB_c5⟩, ?_⟩
  rw [check_mA, check_mB]

/-- C4 counterexample: the zero 1×1 matrix is symmetric and `trivEigh`
is its genuine eigendecomposition (identity · diag 0 · identityᵀ = 0,
eigenvalue 0).  With the cache absent, the returned `D` contains
`sqrt 0 = 0`, strictly below `sqrt 1e-20`: the clamp at line 80 only
applies to eigenvalues strictly below zero, so a nonnegative
eigenvalue below `1e-20` passes through. -/
theorem eigen_floor_cex :
    (0 : Matrix (Fin 1) (Fin 1) ℝ)ᵀ = 0 ∧
    (1 : Matrix (Fin 1) (Fin 1) ℝ) * Matrix.diagonal (fun _ => (0 : ℝ)) *
      (1 : Matrix (Fin 1) (Fin 1) ℝ)ᵀ = 0 ∧
    (eigen_decomposition trivEigh (0 : Matrix (Fin 1) (Fin 1) ℝ) none none).2.2 0 <
      Real.sqrt 1e-20 := by
  refine ⟨Matrix.transpose_zero, by simp, ?_⟩
  have hd : (eigen_decomposition trivEigh (0 : Matrix (Fin 1) (Fin 1) ℝ) none none).2.2 0 =
      Real.sqrt (if (0 : ℝ) < 0 then 1e-20 else 0) := rfl
  rw [hd, if_neg (lt_irrefl (0 : ℝ)), Real.sqrt_zero]
  exact Real.sqrt_pos.mpr (by norm_num)

/-- C4 (amended): for every symmetric input with the cache absent,
every entry of the returned `D` is nonnegative and at least
`min (sqrt 1e-20) (sqrt eigenvalue_i)`: eigenvalues below `0` are
clamped to `1e-20` before the square root, but a nonnegative
eigenvalue below `1e-20` yields its own (smaller) square root. -/
theorem eigen_floor_amended {n : ℕ}
    (eigh : Matrix (Fin n) (Fin n) ℝ → (Fin n → ℝ) × Matrix (Fin n) (Fin n) ℝ)
    (C : Matrix (Fin n) (Fin n) ℝ) (hC : Cᵀ = C) (i : Fin n) :
    0 ≤ (eigen_decomposition eigh C none none).2.2 i ∧
    min (Real.sqrt 1e-20) (Real.sqrt ((eigh (((1 : ℝ) / 2) • (C + Cᵀ))).1 i)) ≤
      (eigen_decomposition eigh C none none).2.2 i := by
  refine ⟨Real.sqrt_nonneg _, ?_⟩
  have hd : (eigen_decomposition eigh C none none).2.2 i =
      Real.sqrt (if (eigh (((1 : ℝ) / 2) • (C + Cᵀ))).1 i < 0 then 1e-20
        else (eigh (((1 : ℝ) / 2) • (C + Cᵀ))).1 i) := rfl
  rw [hd]
  by_cases h : (eigh (((1 : ℝ) / 2) • (C + Cᵀ))).1 i < 0
  · rw [if_pos h]
    exact min_le_left _ _
  · rw [if_neg h]
    exact min_le_right _ _

/-- Witness for C4's amended statement at the symmetric zero matrix. -/
theorem eigen_floor_amended_witness :
    0 ≤ (eigen_decomposition trivEigh (0 : Matrix (Fin 1) (Fin 1) ℝ) none none).2.2 0 ∧
    min (Real.sqrt 1e-20)
      (Real.sqrt ((trivEigh (((1 : ℝ) / 2) •
        ((0 : Matrix (Fin 1) (Fin 1) ℝ) + (0 : Matrix (Fin 1) (Fin 1) ℝ)ᵀ))).1 0)) ≤
      (eigen_decomposition trivEigh (0 : Matrix (Fin 1) (Fin 1) ℝ) none none).2.2 0 :=
  eigen_floor_amended trivEigh 0 Matrix.transpose_zero 0

/-- C7: for every valid initialization input the covariance learning
rates satisfy `c_1 + c_mu ≤ 1`; indeed `c_mu` is capped at
`1 - c_1 - 1e-8` (line 20). -/
theorem c1_plus_cmu_le_one {n : ℕ} (mean_init : Fin n → ℝ) (sigma : ℝ)
    (population_size mu : ℕ) (hpop : 0 < population_size) (hmu1 : 1 ≤ mu)
    (hmu2 : mu ≤ population_size) (hn : 2 ≤ n) (hsigma : 0 < sigma) :
    (init_strategy mean_init sigma population_size mu).1.c_1 +
      (init_strategy mean_init sigma population_size mu).1.c_mu ≤ 1 := by
  have h : (init_strategy mean_init sigma population_size mu).1.c_mu ≤
      1 - (init_strategy mean_init sigma population_size mu).1.c_1 - 1e-8 := by
    show cMuOf n population_size mu ≤ 1 - c1Of n population_size mu - 1e-8
    exact min_le_left _ _
  have h8 : (0 : ℝ) ≤ 1e-8 := by norm_num
  linarith

/-- Witness for C7 at a concrete valid input. -/
theorem c1_plus_cmu_le_one_witness :
    (init_strategy (fun _ : Fin 2 => (0 : ℝ)) 1 4 2).1.c_1 +
      (init_strategy (fun _ : Fin 2 => (0 : ℝ)) 1 4 2).1.c_mu ≤ 1 :=
  c1_plus_cmu_le_one _ 1 4 2 (by norm_num) (by norm_num) (by norm_num)
    (by norm_num) (by norm_num)

/-- C3 (code bug): initialization cannot fail.  `init_strategy`
performs no validation and unconditionally returns a
`(params, state)` pair — here even for `sigma = -1 ≤ 0` — while the
separate `check_initialization` routine raises `NameError` on any
call (its asserts reference unbound names) and is never invoked, so
no `InvalidParameters`-style failure is ever signalled. -/
theorem initialization_never_fails :
    check_initialization = Except.error (PyErr.nameError "population_size") ∧
    (init_strategy (fun _ : Fin 2 => (0 : ℝ)) (-1) 4 2).2.sigma = -1 ∧
    (init_strategy (fun _ : Fin 2 => (0 : ℝ)) (-1) 4 2).1.pop_size = 4 :=
  ⟨rfl, rfl, rfl⟩

/-- C9: the state returned by `ask` differs from the input state at
most in the eigendecomposition cache fields `C`, `B`, `D`: the mean,
step size, both evolution paths and the generation counter are
returned unchanged. -/
theorem ask_frame_effect {n lam : ℕ}
    (eigh : Matrix (Fin n) (Fin n) ℝ → (Fin n → ℝ) × Matrix (Fin n) (Fin n) ℝ)
    (z : Matrix (Fin n) (Fin lam) ℝ) (memory : Memory n) (params : Params lam) :
    (ask_cma_strategy eigh z memory params).2.mean = memory.mean ∧
    (ask_cma_strategy eigh z memory params).2.sigma = memory.sigma ∧
    (ask_cma_strategy eigh z memory params).2.p_sigma = memory.p_sigma ∧
    (ask_cma_strategy eigh z memory params).2.p_c = memory.p_c ∧
    (ask_cma_strategy eigh z memory params).2.generation = memory.generation :=
  ⟨rfl, rfl, rfl, rfl, rfl⟩

/-- C5 (amended, provable part): within `tell` the cache is
invalidated when `C` is reassigned — the `update_p_sigma` step returns
`_B = _D = None`, they are stored before the covariance update, and
never repopulated — so the state returned by every `tell` call has `B`
and `D` absent. -/
theorem tell_returns_cache_absent {n lam : ℕ}
    (eigh : Matrix (Fin n) (Fin n) ℝ → (Fin n → ℝ) × Matrix (Fin n) (Fin n) ℝ)
    (x : Matrix (Fin lam) (Fin n) ℝ) (fitness : Fin lam → ℝ) (mu : ℕ)
    (params : Params lam) (memory : Memory n) :
    (tell_cma_strategy eigh x fitness mu params memory).B = none ∧
    (tell_cma_strategy eigh x fitness mu params memory).D = none :=
  ⟨rfl, rfl⟩

lemma D2ce_nonneg (i : Fin 2) : 0 ≤ D2ce i := by
  fin_cases i <;> norm_num [D2ce]

lemma D2ce_clamp :
    (fun i => Real.sqrt (if D2ce i < 0 then 1e-20 else D2ce i) ^ 2) = D2ce := by
  funext i
  rw [if_neg (not_lt.mpr (D2ce_nonneg i)), Real.sq_sqrt (D2ce_nonneg i)]

lemma Bce_spectral :
    Bce * Matrix.diagonal D2ce * Bceᵀ = ((1 : ℝ) / 2) • (m0.C + m0.Cᵀ) := by
  show Bce * Matrix.diagonal D2ce * Bceᵀ = ((1 : ℝ) / 2) • (C0 + C0ᵀ)
  ext i j
  fin_cases i <;> fin_cases j <;>
    simp [Bce, D2ce, C0, Matrix.mul_apply, Matrix.diagonal_apply,
      Matrix.transpose_apply, Fin.sum_univ_two, Matrix.smul_apply,
      Matrix.add_apply, Matrix.vecHead, Matrix.vecTail,
      Matrix.vecMul_diagonal, Fin.ext_iff] <;> norm_num

lemma askCE_C :
    (ask_cma_strategy eighCE z0 m0 pA).2.C = ((1 : ℝ) / 2) • (m0.C + m0.Cᵀ) := by
  have h0 : (ask_cma_strategy eighCE z0 m0 pA).2.C =
      Bce * Matrix.diagonal
        (fun i => Real.sqrt (if D2ce i < 0 then 1e-20 else D2ce i) ^ 2) * Bceᵀ := rfl
  rw [h0, D2ce_clamp, Bce_spectral]

/-- C5 counterexample: `Bce` is orthonormal and diagonalizes the
symmetrization of `m0.C` with eigenvalues `D2ce`, so `eighCE` is the
genuine eigendecomposition at the one matrix `ask` feeds it.  Calling
`ask` on the cache-absent state `m0` assigns `C` a new value (the
reconstructed symmetrization, which differs from the stored `C` at
entry `(0,1)`) and yet returns the state with `B` and `D` PRESENT —
refuting the claim that every operation that assigns `C` a new value
leaves the cache absent on return. -/
theorem ask_repopulates_cache_cex :
    Bce * Bceᵀ = 1 ∧
    Bce * Matrix.diagonal D2ce * Bceᵀ = ((1 : ℝ) / 2) • (m0.C + m0.Cᵀ) ∧
    (ask_cma_strategy eighCE z0 m0 pA).2.C ≠ m0.C ∧
    (ask_cma_strategy eighCE z0 m0 pA).2.B = some Bce ∧
    (ask_cma_strategy eighCE z0 m0 pA).2.D ≠ none := by
  refine ⟨?_, Bce_spectral, ?_, rfl, ?_⟩
  · ext i j
    fin_cases i <;> fin_cases j <;>
      simp [Bce, Matrix.mul_apply, Matrix.transpose_apply, Fin.sum_univ_two,
        Matrix.one_apply, Matrix.vecHead, Matrix.vecTail] <;> norm_num
  · intro hEq
    have h01 : (((1 : ℝ) / 2) • (m0.C + m0.Cᵀ)) 0 1 = m0.C 0 1 := by
      rw [← askCE_C, hEq]
    simp only [m0, C0, Matrix.smul_apply, Matrix.add_apply,
      Matrix.transpose_apply] at h01
    norm_num [Matrix.cons_val_zero, Matrix.cons_val_one, Matrix.head_cons] at h01
  · have hD : (ask_cma_strategy eighCE z0 m0 pA).2.D =
        some (fun i => Real.sqrt (if D2ce i < 0 then 1e-20 else D2ce i)) := rfl
    rw [hD]
    exact Option.some_ne_none _

lemma wp_head_pos {lam : ℕ} (h : 2 ≤ lam) :
    0 < weights_prime lam ⟨0, by omega⟩ := by
  unfold weights_prime
  have hcast : ((⟨0, by omega⟩ : Fin lam) : ℝ) + 1 = 1 := by norm_num
  rw [hcast, Real.log_one, sub_zero]
  apply Real.log_pos
  have hl : (2 : ℝ) ≤ (lam : ℝ) := by exact_mod_cast h
  linarith

lemma wp_last_neg {lam : ℕ} (h : 2 ≤ lam) :
    weights_prime lam ⟨lam - 1, by omega⟩ < 0 := by
  unfold weights_prime
  have hcast : ((⟨lam - 1, by omega⟩ : Fin lam) : ℝ) + 1 = (lam : ℝ) := by
    show ((lam - 1 : ℕ) : ℝ) + 1 = (lam : ℝ)
    have h1 : 1 ≤ lam := by omega
    rw [Nat.cast_sub h1]
    push_cast
    ring
  rw [hcast]
  have hl : (2 : ℝ) ≤ (lam : ℝ) := by exact_mod_cast h
  have hlt : ((lam : ℝ) + 1) / 2 < (lam : ℝ) := by linarith
  have hpos : (0 : ℝ) < ((lam : ℝ) + 1) / 2 := by linarith
  linarith [Real.log_lt_log hpos hlt]

lemma positiveSum_pos {lam : ℕ} (h : 2 ≤ lam) : 0 < positiveSum lam := by
  unfold positiveSum
  apply Finset.sum_pos
  · intro i hi
    exact (Finset.mem_filter.mp hi).2
  · exact ⟨⟨0, by omega⟩,
      Finset.mem_filter.mpr ⟨Finset.mem_univ _, wp_head_pos h⟩⟩

lemma negativeSum_pos {lam : ℕ} (h : 2 ≤ lam) : 0 < negativeSum lam := by
  unfold negativeSum
  apply Finset.sum_pos
  · intro i hi
    exact abs_pos.mpr (ne_of_lt (Finset.mem_filter.mp hi).2)
  · exact ⟨⟨lam - 1, by omega⟩,
      Finset.mem_filter.mpr ⟨Finset.mem_univ _, wp_last_neg h⟩⟩

lemma sum_wp_nonneg_eq {lam : ℕ} :
    (∑ i ∈ Finset.univ.filter (fun i : Fin lam => 0 ≤ weights_prime lam i),
      weights_prime lam i) = positiveSum lam := by
  unfold positiveSum
  refine (Finset.sum_subset ?_ ?_).symm
  · intro i hi
    rw [Finset.mem_filter] at hi ⊢
    exact ⟨hi.1, le_of_lt hi.2⟩
  · intro i hi hni
    rw [Finset.mem_filter] at hi hni
    push_neg at hni
    exact (le_antisymm hi.2 (hni hi.1)).symm

lemma sum_wp_neg_eq {lam : ℕ} :
    (∑ i ∈ Finset.univ.filter (fun i : Fin lam => weights_prime lam i < 0),
      weights_prime lam i) = - negativeSum lam := by
  have h1 : negativeSum lam =
      - ∑ i ∈ Finset.univ.filter (fun i : Fin lam => weights_prime lam i < 0),
        weights_prime lam i := by
    unfold negativeSum
    rw [← Finset.sum_neg_distrib]
    exact Finset.sum_congr rfl
      (fun i hi => abs_of_neg (Finset.mem_filter.mp hi).2)
  linarith [h1]

/-- C6 (amended): for every initialization input with
`population_size ≥ 2` (plus `1 ≤ mu ≤ population_size`, `n_dim ≥ 2`),
the produced weights — split by the sign test the source applies,
`weights_prime >= 0` versus `weights_prime < 0` — sum to exactly `1`
on the nonnegative side and exactly `-min_alpha` on the negative
side.  (For `population_size = 1` the claim fails: the lone
preliminary weight is `0`, `positive_sum = 0`, and no normalization
to `1` happens.) -/
theorem weights_normalization_amended {n : ℕ} (mean_init : Fin n → ℝ)
    (sigma : ℝ) (lam mu : ℕ) (hlam : 2 ≤ lam) (hmu1 : 1 ≤ mu)
    (hmu2 : mu ≤ lam) (hn : 2 ≤ n) :
    (∑ i ∈ Finset.univ.filter (fun i : Fin lam => 0 ≤ weights_prime lam i),
      (init_strategy mean_init sigma lam mu).1.weights i) = 1 ∧
    (∑ i ∈ Finset.univ.filter (fun i : Fin lam => weights_prime lam i < 0),
      (init_strategy mean_init sigma lam mu).1.weights i) = - minAlphaOf n lam mu := by
  constructor
  · have hsum : (∑ i ∈ Finset.univ.filter
        (fun i : Fin lam => 0 ≤ weights_prime lam i),
        (init_strategy mean_init sigma lam mu).1.weights i) =
        ∑ i ∈ Finset.univ.filter (fun i : Fin lam => 0 ≤ weights_prime lam i),
          1 / positiveSum lam * weights_prime lam i := by
      refine Finset.sum_congr rfl (fun i hi => ?_)
      have h0 : 0 ≤ weights_prime lam i := (Finset.mem_filter.mp hi).2
      show weightsOf n lam mu i = _
      unfold weightsOf
      rw [if_pos h0]
    rw [hsum, ← Finset.mul_sum, sum_wp_nonneg_eq, one_div,
      inv_mul_cancel₀ (ne_of_gt (positiveSum_pos hlam))]
  · have hsum : (∑ i ∈ Finset.univ.filter
        (fun i : Fin lam => weights_prime lam i < 0),
        (init_strategy mean_init sigma lam mu).1.weights i) =
        ∑ i ∈ Finset.univ.filter (fun i : Fin lam => weights_prime lam i < 0),
          minAlphaOf n lam mu / negativeSum lam * weights_prime lam i := by
      refine Finset.sum_congr rfl (fun i hi => ?_)
      have h0 : weights_prime lam i < 0 := (Finset.mem_filter.mp hi).2
      show weightsOf n lam mu i = _
      unfold weightsOf
      rw [if_neg (not_le.mpr h0)]
    rw [hsum, ← Finset.mul_sum, sum_wp_neg_eq, mul_neg,
      div_mul_cancel₀ _ (ne_of_gt (negativeSum_pos hlam))]

/-- Witness for C6's amended statement at `population_size = 2`,
`mu = 1`, `n_dim = 2`. -/
theorem weights_normalization_amended_witness :
    (∑ i ∈ Finset.univ.filter (fun i : Fin 2 => 0 ≤ weights_prime 2 i),
      (init_strategy (fun _ : Fin 2 => (0 : ℝ)) 1 2 1).1.weights i) = 1 ∧
    (∑ i ∈ Finset.univ.filter (fun i : Fin 2 => weights_prime 2 i < 0),
      (init_strategy (fun _ : Fin 2 => (0 : ℝ)) 1 2 1).1.weights i) =
      - minAlphaOf 2 2 1 :=
  weights_normalization_amended _ 1 2 1 (by norm_num) (by norm_num)
    (by norm_num) (by norm_num)

/-- C6 counterexample: at the valid input `population_size = 1`,
`mu = 1`, `n_dim = 2` the lone preliminary weight is
`log 1 - log 1 = 0`, `positive_sum = 0`, and the nonnegative entries
of the produced weights sum to `0`, not `1`. -/
theorem weights_normalization_lam1_cex :
    (∑ i ∈ Finset.univ.filter (fun i : Fin 1 => 0 ≤ weights_prime 1 i),
      (init_strategy (fun _ : Fin 2 => (0 : ℝ)) 1 1 1).1.weights i) ≠ 1 := by
  have hwp : ∀ i : Fin 1, weights_prime 1 i = 0 := by
    intro i
    have hi : (i : ℝ) = 0 := by
      have h0 : (i : ℕ) = 0 := by omega
      exact_mod_cast congrArg (Nat.cast : ℕ → ℝ) h0
    unfold weights_prime
    rw [hi]
    norm_num
  have hz : (∑ i ∈ Finset.univ.filter (fun i : Fin 1 => 0 ≤ weights_prime 1 i),
      (init_strategy (fun _ : Fin 2 => (0 : ℝ)) 1 1 1).1.weights i) = 0 := by
    refine Finset.sum_eq_zero (fun i _ => ?_)
    show weightsOf 2 1 1 i = 0
    unfold weightsOf
    rw [hwp i, if_pos le_rfl, mul_zero]
  rw [hz]
  exact zero_ne_one

